/-
Verification of the range-query engine of unicode_range_finder (main.go).

The Go source is shallowly embedded below:
  * Go runes/ints are modelled as Nat where the program keeps them
    non-negative (codepoints, table indices, column counts), and as Int
    where Go's int32 cast of a parsed uint32 can go negative
    (runeOfUInt32).
  * Go strings are byte strings; the embedding uses Lean strings, which
    coincide with them on ASCII data (all query syntax and all rendered
    output of this program are ASCII).  strings.Split with a one-character
    separator is embedded as goSplit; utf8.DecodeRuneInString as
    decodeRuneInString; strconv.ParseUint(s, 16, 32) as parseUintHex32.
  * fmt printing is embedded as functions returning the printed String.
  * Go closures stored in []CodepointMatcher are embedded as Lean
    functions Codepoint → Bool.
  * panic and the diagnostic-plus-usage-help early return of
    parseMatchers are embedded as the ParseOutcome codes panicked and
    usageError (ok when neither occurs).
  * The generated table asset generated.go is not part of the sources;
    denseTable models it from the spec (section 4.2).
-/
import Mathlib

namespace URF

/-- One record of the codepoint table (Go struct Codepoint): scalar value
plus the two General_Category bytes. -/
structure Codepoint where
  codepoint : Nat
  majorCategory : Nat
  minorCategory : Nat
deriving DecidableEq, Repr

/-- A closed inclusive interval (Go struct Range with rune fields Begin, End). -/
structure Range where
  Begin : Nat
  End : Nat
deriving DecidableEq, Repr

/-- Go type CodepointMatcher func(Codepoint) bool. -/
def CodepointMatcher : Type := Codepoint → Bool

/-- How one invocation of parseMatchers ends: normally, by printing a
diagnostic plus usage help and returning early, or by a Go panic. -/
inductive ParseOutcome where
  | ok
  | usageError
  | panicked
deriving DecidableEq, Repr

/-- Result of processing a single query term inside parseMatchers' loop. -/
inductive TermResult where
  | skip
  | matched (m : CodepointMatcher)
  | usage
  | panicked

/-- Core of goSplit: split a character list at every occurrence of sep,
keeping empty pieces (semantics of Go strings.Split). -/
def splitChar (sep : Char) : List Char → List (List Char)
  | [] => [[]]
  | c :: rest =>
    match splitChar sep rest with
    | [] => [[c]]
    | l :: ls => if c = sep then [] :: l :: ls else (c :: l) :: ls

/-- Go strings.Split(s, sep) for a one-character separator. -/
def goSplit (s : String) (sep : Char) : List String :=
  (splitChar sep s.toList).map String.mk

/-- Go utf8.DecodeRuneInString: the first rune of the string, or
utf8.RuneError (U+FFFD) for an empty (in Go, also an undecodable) input.
Lean strings are always valid Unicode, so the undecodable-bytes case of Go
is represented by the empty string alone. -/
def decodeRuneInString (s : String) : Nat :=
  match s.toList with
  | [] => 0xFFFD
  | c :: _ => c.toNat

/-- Value of one hexadecimal digit as accepted by Go strconv.ParseUint
with base 16 (0-9, a-f, A-F). -/
def goHexDigitVal (c : Char) : Option Nat :=
  if 48 ≤ c.toNat ∧ c.toNat ≤ 57 then some (c.toNat - 48)
  else if 97 ≤ c.toNat ∧ c.toNat ≤ 102 then some (c.toNat - 87)
  else if 65 ≤ c.toNat ∧ c.toNat ≤ 70 then some (c.toNat - 55)
  else none

/-- Go strconv.ParseUint(s, 16, 32): none models a non-nil error (empty
string, invalid digit, or value out of the 32-bit range). -/
def parseUintHex32 (s : String) : Option Nat :=
  if s.toList.isEmpty then none
  else
    (s.toList.foldl
      (fun acc c =>
        match acc, goHexDigitVal c with
        | some a, some d => some (a * 16 + d)
        | _, _ => none)
      (some 0)).bind
      (fun v => if v < 4294967296 then some v else none)

/-- Go conversion rune(x) of a uint64 value known to fit in 32 bits:
reinterpret as a signed 32-bit integer. -/
def runeOfUInt32 (n : Nat) : Int :=
  if n < 2147483648 then (n : Int) else (n : Int) - 4294967296

/-- One iteration body of the loop in Go parseMatchers (main.go, lines
193-271), for a single space-separated term. -/
def parseTerm (matcher : String) : TermResult :=
  if matcher.length = 0 then .skip
  else
    match goSplit matcher '=' with
    | [key, value] =>
      if key = "cat" then
        match value.toList with
        | [a] => .matched (fun cp => cp.majorCategory == a.toNat)
        | [a, b] =>
          .matched (fun cp => cp.majorCategory == a.toNat && cp.minorCategory == b.toNat)
        | _ => .usage
      else if key = "ch" then
        match goSplit value '-' with
        | [single] =>
          let code := decodeRuneInString single
          .matched (fun cp => cp.codepoint == code)
        | lo :: hi :: _ =>
          let low := decodeRuneInString lo
          let high := decodeRuneInString hi
          .matched (fun cp => low ≤ cp.codepoint && cp.codepoint ≤ high)
        | [] => .usage
      else if key = "cp" then
        match goSplit value '-' with
        | [single] =>
          match parseUintHex32 single with
          | none => .panicked
          | some code => .matched (fun cp => ((cp.codepoint : Int) == runeOfUInt32 code))
        | lo :: hi :: _ =>
          match parseUintHex32 lo with
          | none => .panicked
          | some lowCode =>
            match parseUintHex32 hi with
            | none => .panicked
            | some hiCode =>
              .matched (fun cp =>
                decide (runeOfUInt32 lowCode ≤ (cp.codepoint : Int)) &&
                decide ((cp.codepoint : Int) ≤ runeOfUInt32 hiCode))
        | [] => .usage
      else .usage
    | _ => .usage

/-- Go parseMatchers, on the already-split list of terms: accumulate the
matchers of well-formed terms in order; a diagnostic-and-usage return or a
panic stops the loop, keeping the matchers collected so far. -/
def parseMatchersList : List String → List CodepointMatcher × ParseOutcome
  | [] => ([], .ok)
  | t :: rest =>
    match parseTerm t with
    | .skip => parseMatchersList rest
    | .matched m =>
      let r := parseMatchersList rest
      (m :: r.1, r.2)
    | .usage => ([], .usageError)
    | .panicked => ([], .panicked)

/-- Go parseMatchers (main.go, lines 193-271). -/
def parseMatchers (matchers : String) : List CodepointMatcher × ParseOutcome :=
  parseMatchersList (goSplit matchers ' ')

/-- Scanner loop state of Go query: the in-a-run flag, the start of the
current run, and the Ranges emitted so far. -/
structure ScanState where
  inRange : Bool
  startRange : Nat
  ranges : List Range
deriving Repr

/-- Body of Go query's loop at index i (main.go, lines 278-293); hit is
the value of the combined predicate on the record at index i. -/
def scanStep (hit : Bool) (s : ScanState) (i : Nat) : ScanState :=
  if hit then
    { inRange := true
      startRange := if s.inRange then s.startRange else i
      ranges := s.ranges }
  else
    { inRange := false
      startRange := s.startRange
      ranges := if s.inRange then s.ranges ++ [⟨s.startRange, i - 1⟩] else s.ranges }

/-- The for-range loop of Go query, tracking the element index. -/
def queryLoop (m : Codepoint → Bool) : List Codepoint → Nat → ScanState → ScanState
  | [], _, s => s
  | cp :: rest, i, s => queryLoop m rest (i + 1) (scanStep (m cp) s i)

/-- The same loop at the level of table positions: position j of the
table is scanned with match value M j. -/
def idxLoop (M : Nat → Bool) : Nat → Nat → ScanState → ScanState
  | 0, _, s => s
  | k + 1, i, s => idxLoop M k (i + 1) (scanStep (M i) s i)

/-- The final step of Go query: close the still-open run, if any, with
the given last scalar value. -/
def finishScan (s : ScanState) (lastCp : Nat) : List Range :=
  if s.inRange then s.ranges ++ [⟨s.startRange, lastCp⟩] else s.ranges

/-- Go query (main.go, lines 275-301): one pass over allCodepoints with
the combined predicate, closing the final run with the last table entry's
scalar value. -/
def query (inclusiveMatcher exclusiveMatcher : Codepoint → Bool)
    (allCodepoints : List Codepoint) : List Range :=
  let m := fun cp => inclusiveMatcher cp && !(exclusiveMatcher cp)
  let s := queryLoop m allCodepoints 0 ⟨false, 0, []⟩
  if s.inRange then
    s.ranges ++ [⟨s.startRange, (allCodepoints.getLastD ⟨0, 0, 0⟩).codepoint⟩]
  else s.ranges

/-- The query path of Go main (main.go, lines 83-107): compile the
inclusive matchers from the query string, add the one exclusive bound
matcher when a -range bound was given, and scan. -/
def mainQuery (q : String) (lowCP highCP : Nat) (table : List Codepoint) : List Range :=
  let inclusiveMatchers := (parseMatchers q).1
  let exclusiveMatchers : List CodepointMatcher :=
    if 0 < lowCP ∨ highCP < 0x10ffff then
      [fun cp =>
        decide ((cp.codepoint : Int) < runeOfUInt32 lowCP) ||
        decide (runeOfUInt32 highCP < (cp.codepoint : Int))]
    else []
  query (fun cp => inclusiveMatchers.any (fun f => f cp))
    (fun cp => exclusiveMatchers.any (fun f => f cp)) table

/-- Modelled from the spec: the generated table asset generated.go (the
definition of the global allCodepoints) is not among the sources.  Spec
section 4.2: the table is a fixed-order dense sequence where position i
holds the record rec i; for the unrestricted asset (rec i).codepoint = i.
tableFrom rec i k lists the records at positions i, i+1, ..., i+k-1. -/
def tableFrom (rec : Nat → Codepoint) : Nat → Nat → List Codepoint
  | _, 0 => []
  | i, k + 1 => rec i :: tableFrom rec (i + 1) k

/-- Modelled from the spec: the whole table of n records (spec section
4.2), positions 0 through n-1. -/
def denseTable (rec : Nat → Codepoint) (n : Nat) : List Codepoint :=
  tableFrom rec 0 n

/-- Uppercase hexadecimal digit character of a value below 16. -/
def hexDigitChar (n : Nat) : Char :=
  if n < 10 then Char.ofNat (48 + n) else Char.ofNat (55 + n)

/-- Digits of n in base 16 (most significant first), with structural
fuel: any fuel of at least n is enough, since a number has no more base-16
digits than its value. -/
def toHexCoreAux : Nat → Nat → List Char
  | 0, _ => []
  | fuel + 1, n =>
    if n = 0 then [] else toHexCoreAux fuel (n / 16) ++ [hexDigitChar (n % 16)]

/-- Digits (most significant first) of n in base 16, empty for 0. -/
def toHexCore (n : Nat) : List Char :=
  toHexCoreAux n n

/-- Go fmt %X of a non-negative value: uppercase hexadecimal, no leading
zero padding ("0" for zero). -/
def toHexUpper (n : Nat) : String :=
  if n = 0 then "0" else String.mk (toHexCore n)

/-- Go Range.String (main.go, lines 308-313). -/
def RangeString (r : Range) : String :=
  if r.Begin = r.End then "#x" ++ toHexUpper r.Begin
  else "[#x" ++ toHexUpper r.Begin ++ "-#x" ++ toHexUpper r.End ++ "]"

/-- Go Ranges.String (main.go, lines 317-326): fold over the ranges,
writing " | " before every element except the first. -/
def RangesString (rs : List Range) : String :=
  (rs.foldl
    (fun (p : String × Nat) r =>
      (p.1 ++ (if 0 < p.2 then " | " else "") ++ RangeString r, p.2 + 1))
    ("", 0)).1

/-- The separator-join the spec describes: elements joined by " | ". -/
def joinPipe : List String → String
  | [] => ""
  | [a] => a
  | a :: b :: rest => a ++ " | " ++ joinPipe (b :: rest)

/-- The loop of Go printLine (main.go, lines 126-142): all is the length
of the slice printLine received, i the current index, col the running
column count.  Returns the number of entries printed from this point on
and the text they produced; stops (and prints nothing further) as soon as
a token would push col past highCol. -/
def printLineAux (all : Nat) (highCol : Int) :
    List Range → Nat → Int → Nat × String
  | [], _, _ => (0, "")
  | r :: rest, i, col =>
    let str := (if 0 < i then " " else "") ++ RangeString r ++
      (if i < all - 1 then " |" else "")
    let col2 := col + (str.length : Int)
    if highCol < col2 then (0, "")
    else
      let p := printLineAux all highCol rest (i + 1) col2
      (p.1 + 1, str ++ p.2)

/-- Go printLine (main.go, lines 123-145): prints tokens from the start
of ranges while they fit, then a newline; returns how many Ranges it
consumed together with the printed text. -/
def printLineStr (ranges : List Range) (lowCol : Nat) (highCol : Int) :
    Nat × String :=
  let p := printLineAux ranges.length highCol ranges 0 (lowCol : Int)
  (p.1, p.2 ++ "\n")

/-- Go strings.Repeat(" ", n). -/
def spaces (n : Nat) : String :=
  String.mk (List.replicate n ' ')

/-- The wrapping loop of Go printRanges (main.go, lines 116-120), with
explicit fuel: each iteration prints the leadup, one line of ranges, and
drops the consumed prefix; continuation lines use a blank leadup of the
same length.  The Go loop has no fuel; fuel only truncates runs of the
model longer than the fuel, which (see c1) happens exactly when the Go
loop fails to terminate. -/
def printRangesLoop (highCol : Int) : Nat → List Range → String → String
  | 0, _, _ => ""
  | fuel + 1, ranges, leadup =>
    if ranges.isEmpty then ""
    else
      let p := printLineStr ranges leadup.length highCol
      leadup ++ p.2 ++ printRangesLoop highCol fuel (ranges.drop p.1) (spaces leadup.length)

/-- Go printRanges (main.go, lines 110-121).  ranges.length + 1 fuel is
enough for every terminating run of the Go loop, since a terminating run
consumes at least one Range per iteration. -/
def printRangesStr (ranges : List Range) (leadup : String) (highCol : Int) : String :=
  if highCol ≤ 0 then leadup ++ RangesString ranges ++ "\n"
  else printRangesLoop highCol (ranges.length + 1) ranges leadup

/-- Does some emitted Range contain the scalar value x? -/
def coversB (rs : List Range) (x : Nat) : Bool :=
  rs.any (fun r => r.Begin ≤ x && x ≤ r.End)

/-- Is c one of 0-9, A-F? -/
def isUpperHexDigit (c : Char) : Bool :=
  (48 ≤ c.toNat && c.toNat ≤ 57) || (65 ≤ c.toNat && c.toNat ≤ 70)

/-- Numeric value of an uppercase hexadecimal digit character. -/
def upperHexDigitVal (c : Char) : Nat :=
  if c.toNat ≤ 57 then c.toNat - 48 else c.toNat - 55

/-- Value denoted by a string of uppercase hexadecimal digits. -/
def hexStrVal (l : List Char) : Nat :=
  l.foldl (fun a c => a * 16 + upperHexDigitVal c) 0

/-- s is the uppercase, unpadded hexadecimal rendering of n: it denotes
n, holds only digits 0-9 and A-F, is nonempty, and has no leading zero
(it is exactly "0" when n is zero). -/
def upperHexRepr (n : Nat) (s : String) : Prop :=
  hexStrVal s.toList = n ∧
  (∀ c ∈ s.toList, isUpperHexDigit c = true) ∧
  s.toList ≠ [] ∧
  (n = 0 → s = "0") ∧
  (n ≠ 0 → s.toList.head? ≠ some '0')

theorem toHexCoreAux_fuel_eq :
    ∀ f1 f2 n, n ≤ f1 → n ≤ f2 → toHexCoreAux f1 n = toHexCoreAux f2 n := by
  intro f1
  induction f1 with
  | zero =>
    intro f2 n h1 _
    cases Nat.le_zero.mp h1
    cases f2 with
    | zero => rfl
    | succ b => simp [toHexCoreAux]
  | succ a ih =>
    intro f2 n h1 h2
    cases f2 with
    | zero =>
      cases Nat.le_zero.mp h2
      simp [toHexCoreAux]
    | succ b =>
      by_cases hn : n = 0
      · simp [toHexCoreAux, hn]
      · have hlt : n / 16 < n := Nat.div_lt_self (Nat.pos_of_ne_zero hn) (by decide)
        simp only [toHexCoreAux, if_neg hn]
        rw [ih b (n / 16) (by omega) (by omega)]

theorem toHexCore_eq (n : Nat) (h : n ≠ 0) :
    toHexCore n = toHexCore (n / 16) ++ [hexDigitChar (n % 16)] := by
  have hlt : n / 16 < n := Nat.div_lt_self (Nat.pos_of_ne_zero h) (by decide)
  cases n with
  | zero => exact absurd rfl h
  | succ a =>
    show toHexCoreAux (a + 1) (a + 1) = _
    simp only [toHexCoreAux, if_neg h]
    rw [toHexCoreAux_fuel_eq a ((a + 1) / 16) ((a + 1) / 16) (by omega) (Nat.le_refl _)]
    rfl

theorem hexDigitChar_val : ∀ m, m < 16 → upperHexDigitVal (hexDigitChar m) = m := by
  decide

theorem hexDigitChar_upper : ∀ m, m < 16 → isUpperHexDigit (hexDigitChar m) = true := by
  decide

theorem hexDigitChar_ne_zero : ∀ m, m < 16 → m ≠ 0 → hexDigitChar m ≠ '0' := by
  decide

theorem hexStrVal_append_digit (l : List Char) (c : Char) :
    hexStrVal (l ++ [c]) = hexStrVal l * 16 + upperHexDigitVal c := by
  simp [hexStrVal, List.foldl_append]

theorem hexStrVal_toHexCore (n : Nat) : hexStrVal (toHexCore n) = n := by
  induction n using Nat.strong_induction_on with
  | _ n ih =>
    by_cases hn : n = 0
    · subst hn; rfl
    · have hlt : n / 16 < n := Nat.div_lt_self (Nat.pos_of_ne_zero hn) (by decide)
      rw [toHexCore_eq n hn, hexStrVal_append_digit, ih (n / 16) hlt,
        hexDigitChar_val (n % 16) (Nat.mod_lt n (by decide))]
      omega

theorem toHexCore_upper (n : Nat) : ∀ c ∈ toHexCore n, isUpperHexDigit c = true := by
  induction n using Nat.strong_induction_on with
  | _ n ih =>
    by_cases hn : n = 0
    · subst hn; intro c hc; cases hc
    · have hlt : n / 16 < n := Nat.div_lt_self (Nat.pos_of_ne_zero hn) (by decide)
      rw [toHexCore_eq n hn]
      intro c hc
      rcases List.mem_append.mp hc with h | h
      · exact ih (n / 16) hlt c h
      · rcases List.mem_singleton.mp h with rfl
        exact hexDigitChar_upper (n % 16) (Nat.mod_lt n (by decide))

theorem toHexCore_ne_nil (n : Nat) (h : n ≠ 0) : toHexCore n ≠ [] := by
  rw [toHexCore_eq n h]
  simp

theorem toHexCore_head_ne_zero (n : Nat) (h : n ≠ 0) :
    (toHexCore n).head? ≠ some '0' := by
  induction n using Nat.strong_induction_on with
  | _ n ih =>
    have hlt : n / 16 < n := Nat.div_lt_self (Nat.pos_of_ne_zero h) (by decide)
    rw [toHexCore_eq n h]
    by_cases hq : n / 16 = 0
    · have hmod : n % 16 = n := by omega
      rw [hq]
      show (toHexCore 0 ++ [hexDigitChar (n % 16)]).head? ≠ some '0'
      have : toHexCore 0 = [] := rfl
      rw [this, List.nil_append, List.head?_cons]
      intro hcontra
      exact hexDigitChar_ne_zero (n % 16) (Nat.mod_lt n (by decide)) (by omega)
        (Option.some.inj hcontra)
    · rcases hl : toHexCore (n / 16) with _ | ⟨c, l⟩
      · exact absurd hl (toHexCore_ne_nil (n / 16) hq)
      · have hhead := ih (n / 16) hlt hq
        rw [hl] at hhead
        rw [List.cons_append, List.head?_cons]
        simpa using hhead

/-- Helper for relating the index-driven separator folds to joinPipe:
every element preceded by " | ". -/
def pipedAll : List String → String
  | [] => ""
  | a :: rest => " | " ++ a ++ pipedAll rest

theorem joinPipe_eq_pipedAll (a : String) (l : List String) :
    joinPipe (a :: l) = a ++ pipedAll l := by
  induction l generalizing a with
  | nil => simp [joinPipe, pipedAll]
  | cons b rest ih =>
    show a ++ " | " ++ joinPipe (b :: rest) = a ++ (" | " ++ b ++ pipedAll rest)
    rw [ih b]
    simp [String.append_assoc]

theorem rangesFold_pos (rs : List Range) :
    ∀ (acc : String) (k : Nat), 0 < k →
      (rs.foldl
        (fun (p : String × Nat) r =>
          (p.1 ++ (if 0 < p.2 then " | " else "") ++ RangeString r, p.2 + 1))
        (acc, k)).1 = acc ++ pipedAll (rs.map RangeString) := by
  induction rs with
  | nil =>
    intro acc k _
    simp [pipedAll]
  | cons r rest ih =>
    intro acc k hk
    show (rest.foldl _ (acc ++ (if 0 < k then " | " else "") ++ RangeString r, k + 1)).1 = _
    rw [if_pos hk, ih (acc ++ " | " ++ RangeString r) (k + 1) (Nat.succ_pos k)]
    simp [pipedAll, String.append_assoc]

theorem RangesString_eq_joinPipe (rs : List Range) :
    RangesString rs = joinPipe (rs.map RangeString) := by
  cases rs with
  | nil => rfl
  | cons r rest =>
    show (rest.foldl _ (("" : String) ++ (if 0 < 0 then " | " else "") ++ RangeString r, 1)).1 = _
    rw [if_neg (by omega), String.empty_append, String.empty_append,
      rangesFold_pos rest (RangeString r) 1 (by omega), List.map_cons,
      joinPipe_eq_pipedAll]

theorem joinPipe_cons_ne (a : String) (l : List String) (h : l ≠ []) :
    joinPipe (a :: l) = a ++ " | " ++ joinPipe l := by
  cases l with
  | nil => exact absurd rfl h
  | cons b rest => rfl

theorem pipe_space_append (x : String) : " |" ++ (" " ++ x) = " | " ++ x := by
  rw [← String.append_assoc]
  exact congrArg (fun s => s ++ x) (by decide)

theorem printLineAux_spec (highCol : Int) :
    ∀ (rs : List Range) (i : Nat) (col : Int) (used : Nat) (out : String),
      printLineAux (i + rs.length) highCol rs i col = (used, out) →
      used ≤ rs.length ∧
      out = (if 0 < used ∧ 0 < i then " " else "") ++
        joinPipe ((rs.take used).map RangeString) ++
        (if 0 < used ∧ used < rs.length then " |" else "") := by
  intro rs
  induction rs with
  | nil =>
    intro i col used out h
    simp only [printLineAux] at h
    obtain ⟨rfl, rfl⟩ : 0 = used ∧ "" = out := Prod.mk.injEq .. ▸ h
    simp [joinPipe]
  | cons r rest ih =>
    intro i col used out h
    have hn : i + (r :: rest).length = (i + 1) + rest.length := by
      simp only [List.length_cons]
      omega
    rw [hn] at h
    simp only [printLineAux] at h
    set str := (if 0 < i then " " else "") ++ RangeString r ++
      (if i < (i + 1) + rest.length - 1 then " |" else "") with hstr
    by_cases hbreak : highCol < col + (str.length : Int)
    · rw [if_pos hbreak] at h
      obtain ⟨rfl, rfl⟩ : 0 = used ∧ "" = out := Prod.mk.injEq .. ▸ h
      simp [joinPipe]
    · rw [if_neg hbreak] at h
      rcases hp : printLineAux ((i + 1) + rest.length) highCol rest (i + 1)
          (col + (str.length : Int)) with ⟨u2, o2⟩
      rw [hp] at h
      obtain ⟨hu, ho⟩ : u2 + 1 = used ∧ str ++ o2 = out := Prod.mk.injEq .. ▸ h
      obtain ⟨hle2, hout2⟩ := ih (i + 1) (col + (str.length : Int)) u2 o2 hp
      subst hu
      subst ho
      refine ⟨by simp only [List.length_cons]; omega, ?_⟩
      by_cases hu2 : u2 = 0
      · subst hu2
        have ho2 : o2 = "" := by
          rw [hout2]
          simp [joinPipe]
        rw [ho2, String.append_empty, hstr]
        by_cases hr : 0 < rest.length
        · have h1 : i < (i + 1) + rest.length - 1 := by omega
          simp [h1, hr, joinPipe, List.length_cons]
        · have h1 : ¬(i < (i + 1) + rest.length - 1) := by omega
          have h2 : ¬(0 + 1 < (r :: rest).length) := by
            simp only [List.length_cons]
            omega
          simp [h1, h2, joinPipe]
      · have hrest : rest ≠ [] := by
          intro hc
          rw [hc] at hle2
          simp at hle2
          exact hu2 hle2
        have hrl : 0 < rest.length := List.length_pos.mpr hrest
        have hupos : 0 < u2 := Nat.pos_of_ne_zero hu2
        have htake : (rest.take u2).map RangeString ≠ [] := by
          simp only [ne_eq, List.map_eq_nil_iff, List.take_eq_nil_iff]
          push_neg
          exact ⟨hu2, hrest⟩
        have hjp : joinPipe (((r :: rest).take (u2 + 1)).map RangeString) =
            RangeString r ++ " | " ++ joinPipe ((rest.take u2).map RangeString) := by
          rw [List.take_succ_cons, List.map_cons,
            joinPipe_cons_ne _ _ htake]
        rw [hout2, hjp, hstr]
        have hc2 : i < (i + 1) + rest.length - 1 := by omega
        simp only [hupos, hc2, Nat.succ_pos, true_and, and_true, if_true,
          List.length_cons, Nat.add_lt_add_iff_right, if_pos]
        by_cases hi : 0 < i
        · simp only [hi, if_true, String.append_assoc, pipe_space_append]
        · simp only [hi, if_false, String.append_assoc, pipe_space_append,
            String.empty_append]

theorem toHexUpper_repr (n : Nat) : upperHexRepr n (toHexUpper n) := by
  by_cases hn : n = 0
  · subst hn
    refine ⟨rfl, ?_, ?_, fun _ => rfl, fun h => absurd rfl h⟩
    · decide
    · decide
  · have htl : (toHexUpper n).toList = toHexCore n := by
      simp [toHexUpper, if_neg hn]
    refine ⟨?_, ?_, ?_, fun h => absurd h hn, ?_⟩
    · rw [htl]; exact hexStrVal_toHexCore n
    · rw [htl]; exact toHexCore_upper n
    · rw [htl]; exact toHexCore_ne_nil n hn
    · intro _; rw [htl]; exact toHexCore_head_ne_zero n hn

/-- The exclusive upper bound of the region already fully encoded in
s.ranges: the start of the pending run if one is open, otherwise the
number of records processed. -/
def runBound (s : ScanState) (n : Nat) : Nat :=
  if s.inRange then s.startRange else n

/-- Invariant of the scanner loop after processing table positions
0 through n-1 with match function M. -/
structure ScanInv (M : Nat → Bool) (n : Nat) (s : ScanState) : Prop where
  flag : s.inRange = true ↔ (0 < n ∧ M (n - 1) = true)
  pend_lt : s.inRange = true → s.startRange < n
  pend_all : s.inRange = true → ∀ x, s.startRange ≤ x → x < n → M x = true
  pend_left : s.inRange = true → s.startRange = 0 ∨ M (s.startRange - 1) = false
  cov : ∀ x, coversB s.ranges x = true ↔ (x < runBound s n ∧ M x = true)
  chn : s.ranges.Chain' (fun a b => a.End + 2 ≤ b.Begin)
  wf : ∀ r ∈ s.ranges, r.Begin ≤ r.End

theorem scanInv_init (M : Nat → Bool) : ScanInv M 0 ⟨false, 0, []⟩ where
  flag := by simp
  pend_lt := by simp
  pend_all := by simp
  pend_left := by simp
  cov := by
    intro x
    simp [coversB, runBound]
  chn := List.chain'_nil
  wf := by simp

theorem coversB_of_mem (rs : List Range) (r : Range) (hmem : r ∈ rs)
    (hwf : r.Begin ≤ r.End) : coversB rs r.End = true := by
  simp only [coversB, List.any_eq_true]
  exact ⟨r, hmem, by simp [hwf]⟩

theorem last_end_bound (M : Nat → Bool) (n : Nat) (s : ScanState)
    (inv : ScanInv M n s) (hin : s.inRange = true) :
    ∀ a ∈ s.ranges.getLast?, a.End + 2 ≤ s.startRange := by
  intro a hlast
  have hmem : a ∈ s.ranges := List.mem_of_mem_getLast? hlast
  have hcov : coversB s.ranges a.End = true :=
    coversB_of_mem s.ranges a hmem (inv.wf a hmem)
  have hc := (inv.cov a.End).mp hcov
  rw [runBound, if_pos hin] at hc
  rcases inv.pend_left hin with h0 | hMf
  · omega
  · have hne : a.End ≠ s.startRange - 1 := by
      intro he
      rw [he] at hc
      rw [hc.2] at hMf
      cases hMf
    omega

theorem ScanInv.step (M : Nat → Bool) (n : Nat) (s : ScanState)
    (inv : ScanInv M n s) : ScanInv M (n + 1) (scanStep (M n) s n) := by
  by_cases hM : M n = true
  · rw [scanStep, if_pos hM]
    by_cases hin : s.inRange = true
    · rw [if_pos hin]
      refine ⟨?_, ?_, ?_, ?_, ?_, inv.chn, inv.wf⟩
      · dsimp only
        simp [hM]
      · intro _
        dsimp only
        have := inv.pend_lt hin
        omega
      · intro _ x hx1 hx2
        dsimp only at hx1
        rcases Nat.lt_or_ge x n with h | h
        · exact inv.pend_all hin x hx1 h
        · have : x = n := by omega
          rw [this]
          exact hM
      · intro _
        dsimp only
        exact inv.pend_left hin
      · intro x
        dsimp only
        have := inv.cov x
        rw [runBound, if_pos hin] at this
        rw [runBound, if_pos rfl]
        exact this
    · rw [if_neg hin]
      refine ⟨?_, ?_, ?_, ?_, ?_, inv.chn, inv.wf⟩
      · dsimp only
        simp [hM]
      · intro _
        dsimp only
        omega
      · intro _ x hx1 hx2
        dsimp only at hx1
        have : x = n := by omega
        rw [this]
        exact hM
      · intro _
        dsimp only
        have hflag := inv.flag
        by_cases hn : n = 0
        · exact Or.inl hn
        · refine Or.inr ?_
          have hnot : ¬(0 < n ∧ M (n - 1) = true) := fun hcon => hin (hflag.mpr hcon)
          rcases Bool.eq_false_or_eq_true (M (n - 1)) with h | h
          · exact absurd ⟨Nat.pos_of_ne_zero hn, h⟩ hnot
          · exact h
      · intro x
        dsimp only
        have := inv.cov x
        rw [runBound, if_neg hin] at this
        rw [runBound, if_pos rfl]
        exact this
  · have hM' : M n = false := Bool.eq_false_iff.mpr hM
    rw [scanStep, if_neg hM]
    by_cases hin : s.inRange = true
    · rw [if_pos hin]
      have hs0 : s.startRange < n := inv.pend_lt hin
      refine ⟨?_, ?_, ?_, ?_, ?_, ?_, ?_⟩
      · simp [hM']
      · intro hcon
        cases hcon
      · intro hcon
        cases hcon
      · intro hcon
        cases hcon
      · intro x
        rw [runBound]
        simp only [if_neg (Bool.false_ne_true)]
        simp only [coversB, List.any_append, Bool.or_eq_true, List.any_cons,
          List.any_nil, Bool.or_false]
        constructor
        · intro h
          rcases h with h | h
          · have hc := (inv.cov x).mp h
            rw [runBound, if_pos hin] at hc
            exact ⟨by omega, hc.2⟩
          · simp only [Bool.and_eq_true, decide_eq_true_eq] at h
            refine ⟨by omega, inv.pend_all hin x h.1 (by omega)⟩
        · intro ⟨hx, hMx⟩
          have hxn : x ≠ n := by
            intro he
            rw [he] at hMx
            rw [hMx] at hM'
            cases hM'
          rcases Nat.lt_or_ge x s.startRange with h | h
          · refine Or.inl ((inv.cov x).mpr ?_)
            rw [runBound, if_pos hin]
            exact ⟨h, hMx⟩
          · refine Or.inr ?_
            simp only [Bool.and_eq_true, decide_eq_true_eq]
            exact ⟨h, by omega⟩
      · rw [List.chain'_append]
        refine ⟨inv.chn, List.chain'_singleton _, ?_⟩
        intro x hx y hy
        simp only [List.head?_cons, Option.mem_def, Option.some.injEq] at hy
        rw [← hy]
        exact last_end_bound M n s inv hin x hx
      · intro r hr
        rcases List.mem_append.mp hr with h | h
        · exact inv.wf r h
        · rcases List.mem_singleton.mp h with rfl
          show s.startRange ≤ n - 1
          omega
    · rw [if_neg hin]
      refine ⟨?_, ?_, ?_, ?_, ?_, inv.chn, inv.wf⟩
      · simp [hM']
      · intro hcon
        cases hcon
      · intro hcon
        cases hcon
      · intro hcon
        cases hcon
      · intro x
        have hold := inv.cov x
        rw [runBound, if_neg hin] at hold
        rw [runBound]
        simp only [if_neg (Bool.false_ne_true)]
        rw [hold]
        constructor
        · intro ⟨h1, h2⟩
          exact ⟨by omega, h2⟩
        · intro ⟨h1, h2⟩
          have hxn : x ≠ n := by
            intro he
            rw [he] at h2
            rw [h2] at hM'
            cases hM'
          exact ⟨by omega, h2⟩

theorem idxLoop_inv (M : Nat → Bool) :
    ∀ (k i : Nat) (s : ScanState), ScanInv M i s → ScanInv M (i + k) (idxLoop M k i s) := by
  intro k
  induction k with
  | zero =>
    intro i s inv
    exact inv
  | succ k ih =>
    intro i s inv
    have hstep := ScanInv.step M i s inv
    have := ih (i + 1) (scanStep (M i) s i) hstep
    have harith : (i + 1) + k = i + (k + 1) := by omega
    rw [harith] at this
    exact this

theorem queryLoop_tableFrom (m : Codepoint → Bool) (rec : Nat → Codepoint) :
    ∀ (k i : Nat) (s : ScanState),
      queryLoop m (tableFrom rec i k) i s = idxLoop (fun j => m (rec j)) k i s := by
  intro k
  induction k with
  | zero =>
    intro i s
    rfl
  | succ k ih =>
    intro i s
    show queryLoop m (rec i :: tableFrom rec (i + 1) k) i s = _
    rw [queryLoop, ih (i + 1)]
    rfl

theorem tableFrom_getLastD (rec : Nat → Codepoint) :
    ∀ (k i : Nat) (d : Codepoint), (tableFrom rec i (k + 1)).getLastD d = rec (i + k) := by
  intro k
  induction k with
  | zero =>
    intro i d
    rfl
  | succ k ih =>
    intro i d
    show (rec i :: tableFrom rec (i + 1) (k + 1)).getLastD d = _
    rw [List.getLastD_cons, ih (i + 1)]
    exact congrArg rec (by omega)

theorem query_denseTable (incl excl : Codepoint → Bool) (rec : Nat → Codepoint) (n : Nat) :
    query incl excl (denseTable rec n) =
      finishScan (idxLoop (fun j => incl (rec j) && !excl (rec j)) n 0 ⟨false, 0, []⟩)
        ((denseTable rec n).getLastD ⟨0, 0, 0⟩).codepoint := by
  show (let s := queryLoop _ (denseTable rec n) 0 ⟨false, 0, []⟩
    if s.inRange then
      s.ranges ++ [⟨s.startRange, ((denseTable rec n).getLastD ⟨0, 0, 0⟩).codepoint⟩]
    else s.ranges) = _
  rw [denseTable, queryLoop_tableFrom (fun cp => incl cp && !excl cp) rec n 0]
  rfl

theorem coversB_finish (M : Nat → Bool) (n : Nat) (s : ScanState) (inv : ScanInv M n s) :
    ∀ x, coversB (finishScan s (n - 1)) x = true ↔ (x < n ∧ M x = true) := by
  intro x
  by_cases hin : s.inRange = true
  · rw [finishScan, if_pos hin]
    have hs0 : s.startRange < n := inv.pend_lt hin
    have hcov := inv.cov x
    rw [runBound, if_pos hin] at hcov
    simp only [coversB, List.any_append, Bool.or_eq_true, List.any_cons, List.any_nil,
      Bool.or_false, Bool.and_eq_true, decide_eq_true_eq]
    rw [coversB] at hcov
    constructor
    · intro h
      rcases h with h | h
      · have := hcov.mp h
        exact ⟨by omega, this.2⟩
      · exact ⟨by omega, inv.pend_all hin x h.1 (by omega)⟩
    · intro ⟨hx, hMx⟩
      rcases Nat.lt_or_ge x s.startRange with h | h
      · exact Or.inl (hcov.mpr ⟨h, hMx⟩)
      · exact Or.inr ⟨h, by omega⟩
  · rw [finishScan, if_neg hin]
    have hcov := inv.cov x
    rw [runBound, if_neg hin] at hcov
    exact hcov

theorem finish_wf (M : Nat → Bool) (n : Nat) (s : ScanState) (inv : ScanInv M n s)
    (lastCp : Nat) (hlast : n - 1 ≤ lastCp) :
    ∀ r ∈ finishScan s lastCp, r.Begin ≤ r.End := by
  intro r hr
  by_cases hin : s.inRange = true
  · rw [finishScan, if_pos hin] at hr
    rcases List.mem_append.mp hr with h | h
    · exact inv.wf r h
    · rcases List.mem_singleton.mp h with rfl
      show s.startRange ≤ lastCp
      have := inv.pend_lt hin
      omega
  · rw [finishScan, if_neg hin] at hr
    exact inv.wf r hr

theorem finish_chain (M : Nat → Bool) (n : Nat) (s : ScanState) (inv : ScanInv M n s)
    (lastCp : Nat) :
    (finishScan s lastCp).Chain' (fun a b => a.End + 2 ≤ b.Begin) := by
  by_cases hin : s.inRange = true
  · rw [finishScan, if_pos hin]
    rw [List.chain'_append]
    refine ⟨inv.chn, List.chain'_singleton _, ?_⟩
    intro x hx y hy
    simp only [List.head?_cons, Option.mem_def, Option.some.injEq] at hy
    rw [← hy]
    exact last_end_bound M n s inv hin x hx
  · rw [finishScan, if_neg hin]
    exact inv.chn

theorem chain_head_all :
    ∀ (l : List Range) (a : Range), (a :: l).Chain' (fun x y => x.End + 2 ≤ y.Begin) →
      (∀ r ∈ a :: l, r.Begin ≤ r.End) → ∀ b ∈ l, a.End + 2 ≤ b.Begin := by
  intro l
  induction l with
  | nil =>
    intro a _ _ b hb
    cases hb
  | cons c rest ih =>
    intro a hch hwf b hb
    have h1 : a.End + 2 ≤ c.Begin := (List.chain'_cons.mp hch).1
    rcases List.mem_cons.mp hb with rfl | hb2
    · exact h1
    · have h2 := ih c (List.chain'_cons.mp hch).2
        (fun r hr => hwf r (List.mem_cons_of_mem a hr)) b hb2
      have h3 : c.Begin ≤ c.End := hwf c (by simp)
      omega

theorem chain_pairwise :
    ∀ (l : List Range), l.Chain' (fun a b => a.End + 2 ≤ b.Begin) →
      (∀ r ∈ l, r.Begin ≤ r.End) →
      l.Pairwise (fun a b => a.Begin < b.Begin ∧ a.End < b.Begin) := by
  intro l
  induction l with
  | nil =>
    intro _ _
    exact List.Pairwise.nil
  | cons a rest ih =>
    intro hch hwf
    refine List.Pairwise.cons ?_ (ih (List.Chain'.tail hch)
      (fun r hr => hwf r (List.mem_cons_of_mem a hr)))
    intro b hb
    have h1 := chain_head_all rest a hch hwf b hb
    have h2 : a.Begin ≤ a.End := hwf a (by simp)
    exact ⟨by omega, by omega⟩

theorem queryLoop_none (m : Codepoint → Bool) :
    ∀ (l : List Codepoint) (i : Nat), (∀ cp ∈ l, m cp = false) →
      queryLoop m l i ⟨false, 0, []⟩ = ⟨false, 0, []⟩ := by
  intro l
  induction l with
  | nil =>
    intro i _
    rfl
  | cons cp rest ih =>
    intro i h
    show queryLoop m rest (i + 1) (scanStep (m cp) ⟨false, 0, []⟩ i) = _
    rw [h cp (List.mem_cons_self cp rest)]
    exact ih (i + 1) (fun cp2 h2 => h cp2 (List.mem_cons_of_mem cp h2))

theorem denseTable_last (maj minr : Nat → Nat) (n : Nat) :
    ((denseTable (fun i => (⟨i, maj i, minr i⟩ : Codepoint)) n).getLastD
      ⟨0, 0, 0⟩).codepoint = n - 1 := by
  cases n with
  | zero => rfl
  | succ k =>
    rw [denseTable, tableFrom_getLastD]
    simp

theorem coversB_query_dense (incl excl : Codepoint → Bool) (maj minr : Nat → Nat)
    (n x : Nat) :
    coversB (query incl excl (denseTable (fun i => ⟨i, maj i, minr i⟩) n)) x = true ↔
      (x < n ∧ incl ⟨x, maj x, minr x⟩ = true ∧ excl ⟨x, maj x, minr x⟩ = false) := by
  rw [query_denseTable, denseTable_last]
  have inv := idxLoop_inv
    (fun j => incl ((fun i => (⟨i, maj i, minr i⟩ : Codepoint)) j) &&
      !excl ((fun i => (⟨i, maj i, minr i⟩ : Codepoint)) j)) n 0 ⟨false, 0, []⟩
    (scanInv_init _)
  rw [Nat.zero_add] at inv
  rw [coversB_finish _ n _ inv]
  simp only [Bool.and_eq_true, Bool.not_eq_true']

/-- The term neither stops parseMatchers' loop nor panics: it is skipped
or contributes one matcher. -/
def termBenign (t : String) : Prop :=
  parseTerm t = .skip ∨ ∃ m, parseTerm t = .matched m

theorem parseMatchersList_benign_append (ts2 : List String) :
    ∀ ts1 : List String, (∀ t ∈ ts1, termBenign t) →
      parseMatchersList (ts1 ++ ts2) =
        ((parseMatchersList ts1).1 ++ (parseMatchersList ts2).1,
          (parseMatchersList ts2).2) := by
  intro ts1
  induction ts1 with
  | nil =>
    intro _
    rfl
  | cons t rest ih =>
    intro hb
    have ihr := ih (fun t2 ht2 => hb t2 (List.mem_cons_of_mem t ht2))
    rcases hb t (List.mem_cons_self t rest) with hskip | ⟨m, hm⟩
    · show parseMatchersList (t :: (rest ++ ts2)) = _
      simp only [parseMatchersList, hskip, ihr]
    · show parseMatchersList (t :: (rest ++ ts2)) = _
      simp only [parseMatchersList, hm, ihr, List.cons_append]

theorem toList_append (a b : String) : (a ++ b).toList = a.toList ++ b.toList :=
  String.data_append a b

/-- C1.  The spec claims the layout printer always places at least one
Range per line, never emits a Range-free line while Ranges remain, and
hence terminates.  The code has no such guard: with ranges = [{0,0}],
leadup = "" and highcol = 1, printLine stops before its first token
(entriesUsed = 0) and prints a bare newline, so printRanges drops nothing
and loops forever, emitting one blank line per iteration (the second
conjunct: the loop body yields only newlines, one per unit of fuel, with
the Range list never shrinking). -/
theorem c1_starvation_loop :
    printLineStr [⟨0, 0⟩] 0 1 = (0, "\n") ∧
    List.drop (printLineStr [⟨0, 0⟩] 0 1).1 [(⟨0, 0⟩ : Range)] = [⟨0, 0⟩] ∧
    (∀ fuel, printRangesLoop 1 fuel [⟨0, 0⟩] "" =
      String.mk (List.replicate fuel '\n')) := by
  refine ⟨by decide, by decide, ?_⟩
  intro fuel
  induction fuel with
  | zero => rfl
  | succ f ih =>
    have hstep : printRangesLoop 1 (f + 1) [⟨0, 0⟩] "" =
        "\n" ++ printRangesLoop 1 f [⟨0, 0⟩] "" := rfl
    rw [hstep, ih]
    rfl

/-- C2, counterexample.  The spec claims a malformed query term stops the
invocation with no partial range output.  In the code parseMatchers does
return early with a usage error, but main keeps going with the matchers
collected before the malformed term: the query "cp=41 bogus" yields a
usage error AND the range for 0x41, which prints as a non-empty output. -/
theorem c2_counterexample :
    (parseMatchers "cp=41 bogus").2 = ParseOutcome.usageError ∧
    mainQuery "cp=41 bogus" 0 0x10ffff (denseTable (fun i => ⟨i, 32, 32⟩) 80) =
      [⟨65, 65⟩] ∧
    printRangesStr [⟨65, 65⟩] "" 80 = "#x41\n" ∧
    ("#x41\n" : String) ≠ "" := by
  refine ⟨by decide, by decide, by decide, by decide⟩

/-- C2, amended.  On a malformed term (no or several equals signs,
unknown key, bad cat length) the compiler reports a usage error and stops
processing the remaining terms, but it returns the matchers compiled
before the malformed term and the invocation goes on to scan and print
with them (partial output is possible, as the counterexample shows). -/
theorem c2_amended (ts1 ts2 : List String) (t : String)
    (h1 : ∀ t2 ∈ ts1, termBenign t2) (h2 : parseTerm t = .usage) :
    parseMatchersList (ts1 ++ t :: ts2) =
      ((parseMatchersList ts1).1, ParseOutcome.usageError) := by
  rw [parseMatchersList_benign_append (t :: ts2) ts1 h1]
  simp only [parseMatchersList, h2, List.append_nil]

theorem c2_amended_witness :
    parseMatchersList (["cp=41"] ++ "bogus" :: ["cp=42"]) =
      ((parseMatchersList ["cp=41"]).1, ParseOutcome.usageError) :=
  c2_amended ["cp=41"] ["cp=42"] "bogus"
    (fun t2 ht2 => by
      rcases List.mem_singleton.mp ht2 with rfl
      exact Or.inr ⟨_, rfl⟩)
    rfl

/-- C3.  A scalar value is covered by the scanner's output iff the
inclusive predicate holds and the exclusive predicate does not on its
record (first conjunct, over the dense table of spec section 4.2); and
when no -range bound is given (main's defaults lowCP = 0,
highCP = 0x10FFFF), no codepoint is excluded: coverage is exactly the
inclusive matches (second conjunct). -/
theorem c3_coverage :
    (∀ (incl excl : Codepoint → Bool) (maj minr : Nat → Nat) (n x : Nat),
      coversB (query incl excl (denseTable (fun i => ⟨i, maj i, minr i⟩) n)) x = true ↔
        (x < n ∧ incl ⟨x, maj x, minr x⟩ = true ∧ excl ⟨x, maj x, minr x⟩ = false)) ∧
    (∀ (q : String) (maj minr : Nat → Nat) (n x : Nat),
      coversB (mainQuery q 0 0x10ffff (denseTable (fun i => ⟨i, maj i, minr i⟩) n)) x
          = true ↔
        (x < n ∧ (parseMatchers q).1.any (fun f => f ⟨x, maj x, minr x⟩) = true)) := by
  refine ⟨coversB_query_dense, ?_⟩
  intro q maj minr n x
  rw [mainQuery]
  rw [if_neg (by omega)]
  rw [coversB_query_dense]
  simp

/-- C4.  Over every table whose records carry scalar values at least
their position (every generated table: positions map to scalar values
low + i), every emitted Range has Begin at most End, and the emitted
sequence is strictly ascending by Begin, non-overlapping and
non-adjacent: consecutive Ranges satisfy End + 1 < next Begin. -/
theorem c4_invariants (incl excl : Codepoint → Bool) (rec : Nat → Codepoint) (n : Nat)
    (hrec : ∀ i, i < n → i ≤ (rec i).codepoint) :
    (∀ r ∈ query incl excl (denseTable rec n), r.Begin ≤ r.End) ∧
    (query incl excl (denseTable rec n)).Chain' (fun a b => a.End + 1 < b.Begin) ∧
    (query incl excl (denseTable rec n)).Pairwise
      (fun a b => a.Begin < b.Begin ∧ a.End < b.Begin) := by
  rw [query_denseTable]
  have inv := idxLoop_inv (fun j => incl (rec j) && !excl (rec j)) n 0 ⟨false, 0, []⟩
    (scanInv_init _)
  rw [Nat.zero_add] at inv
  have hlast : n - 1 ≤ ((denseTable rec n).getLastD ⟨0, 0, 0⟩).codepoint := by
    cases n with
    | zero => omega
    | succ k =>
      rw [denseTable, tableFrom_getLastD]
      have := hrec (0 + k) (by omega)
      omega
  have hwf := finish_wf _ n _ inv _ hlast
  have hchain := finish_chain _ n _ inv ((denseTable rec n).getLastD ⟨0, 0, 0⟩).codepoint
  refine ⟨hwf, hchain.imp (fun a b h => by omega), ?_⟩
  have := chain_pairwise _ hchain hwf
  exact this

theorem c4_invariants_witness :
    query (fun cp => cp.codepoint == 3) (fun _ => false)
      (denseTable (fun i => ⟨i, 32, 32⟩) 6) = [⟨3, 3⟩] ∧
    (⟨3, 3⟩ : Range).Begin ≤ (⟨3, 3⟩ : Range).End :=
  ⟨by decide,
    (c4_invariants (fun cp => cp.codepoint == 3) (fun _ => false)
      (fun i => ⟨i, 32, 32⟩) 6 (fun i _ => Nat.le_refl i)).1 ⟨3, 3⟩ (by decide)⟩

/-- C5, counterexample.  The spec claims an unparseable hex value in a
cp= term yields a usage error (diagnostic plus usage help) and nothing
else.  The code panics instead: strconv.ParseUint's error is passed to
panic, which aborts the process without printing usage help. -/
theorem c5_counterexample :
    (parseMatchers "cp=zz").2 = ParseOutcome.panicked ∧
    ParseOutcome.panicked ≠ ParseOutcome.usageError := by
  refine ⟨by decide, by decide⟩

/-- C5, amended.  A cp= term with an unparseable hex value makes the
compiler panic (no usage help), aborting the processing of the remaining
terms with only the previously compiled matchers collected; ch= values
are never reported at all (a failed decode silently yields the
replacement-rune matcher, see C10). -/
theorem c5_amended (ts1 ts2 : List String) (t : String)
    (h1 : ∀ t2 ∈ ts1, termBenign t2) (h2 : parseTerm t = .panicked) :
    parseMatchersList (ts1 ++ t :: ts2) =
      ((parseMatchersList ts1).1, ParseOutcome.panicked) := by
  rw [parseMatchersList_benign_append (t :: ts2) ts1 h1]
  simp only [parseMatchersList, h2, List.append_nil]

theorem c5_amended_witness :
    parseMatchersList (["cp=41"] ++ "cp=zz" :: ["cp=42"]) =
      ((parseMatchersList ["cp=41"]).1, ParseOutcome.panicked) :=
  c5_amended ["cp=41"] ["cp=42"] "cp=zz"
    (fun t2 ht2 => by
      rcases List.mem_singleton.mp ht2 with rfl
      exact Or.inr ⟨_, rfl⟩)
    rfl

/-- C6, counterexample.  The spec claims an empty Range sequence prints
as empty output with no trailing leadup-only line for every highcol.
With highcol = 0 the code prints the leadup and a newline even when the
sequence is empty: a leadup-only line. -/
theorem c6_counterexample :
    printRangesStr [] "lead: " 0 = "lead: \n" ∧
    ("lead: \n" : String) ≠ "" := by
  refine ⟨by decide, by decide⟩

/-- C6, amended.  An empty table or a query matching nothing yields an
empty Range sequence (not an error); with highcol > 0 the printed output
is empty (no leadup-only line), while with highcol and 0 or below a
single line holding just the leadup (and newline) is printed. -/
theorem c6_amended :
    (∀ (incl excl : Codepoint → Bool), query incl excl [] = []) ∧
    (∀ (incl excl : Codepoint → Bool) (table : List Codepoint),
      (∀ cp ∈ table, (incl cp && !excl cp) = false) → query incl excl table = []) ∧
    (∀ (leadup : String) (highCol : Int), 0 < highCol →
      printRangesStr [] leadup highCol = "") ∧
    (∀ (leadup : String) (highCol : Int), highCol ≤ 0 →
      printRangesStr [] leadup highCol = leadup ++ "\n") := by
  refine ⟨fun incl excl => rfl, ?_, ?_, ?_⟩
  · intro incl excl table h
    rw [query]
    rw [queryLoop_none _ table 0 h]
    rfl
  · intro leadup highCol h
    rw [printRangesStr, if_neg (by omega)]
    rfl
  · intro leadup highCol h
    rw [printRangesStr, if_pos h]
    show leadup ++ "" ++ "\n" = leadup ++ "\n"
    rw [String.append_empty]

theorem c6_amended_witness :
    query (fun _ => true) (fun _ => true) [⟨0, 32, 32⟩] = [] ∧
    printRangesStr [] "L" 5 = "" ∧
    printRangesStr [] "L" 0 = "L" ++ "\n" :=
  ⟨c6_amended.2.1 (fun _ => true) (fun _ => true) [⟨0, 32, 32⟩] (by decide),
    c6_amended.2.2.1 "L" 5 (by decide),
    c6_amended.2.2.2 "L" 0 (by decide)⟩

/-- C7.  A Range with equal bounds renders as "#x" followed by the
uppercase unpadded hexadecimal of the value (and contains no bracket);
otherwise it renders as the bracketed pair of such hexadecimals.
upperHexRepr pins down "uppercase, unpadded hexadecimal": the digit
string denotes the value, uses only 0-9 and A-F, and has no leading
zero. -/
theorem c7_rendering (r : Range) :
    (r.Begin = r.End →
      RangeString r = "#x" ++ toHexUpper r.Begin ∧
      upperHexRepr r.Begin (toHexUpper r.Begin) ∧
      '[' ∉ (RangeString r).toList) ∧
    (r.Begin ≠ r.End →
      RangeString r = "[#x" ++ toHexUpper r.Begin ++ "-#x" ++ toHexUpper r.End ++ "]" ∧
      upperHexRepr r.Begin (toHexUpper r.Begin) ∧
      upperHexRepr r.End (toHexUpper r.End)) := by
  constructor
  · intro hbe
    have heq : RangeString r = "#x" ++ toHexUpper r.Begin := by
      rw [RangeString, if_pos hbe]
    refine ⟨heq, toHexUpper_repr r.Begin, ?_⟩
    rw [heq, toList_append]
    intro hmem
    rcases List.mem_append.mp hmem with h | h
    · exact absurd h (by decide)
    · have := (toHexUpper_repr r.Begin).2.1 '[' h
      exact absurd this (by decide)
  · intro hne
    refine ⟨?_, toHexUpper_repr r.Begin, toHexUpper_repr r.End⟩
    rw [RangeString, if_neg hne]

theorem c7_rendering_witness :
    RangeString ⟨10, 10⟩ = "#x" ++ toHexUpper 10 ∧
    RangeString ⟨0, 255⟩ = "[#x" ++ toHexUpper 0 ++ "-#x" ++ toHexUpper 255 ++ "]" :=
  ⟨((c7_rendering ⟨10, 10⟩).1 rfl).1, ((c7_rendering ⟨0, 255⟩).2 (by decide)).1⟩

/-- C8.  With highcol at 0 or below, wrapping is disabled: the whole
sequence prints as one line, the leadup followed by all rendered ranges
joined by " | " (joinPipe), with no trailing separator, then a single
newline. -/
theorem c8_nowrap (rs : List Range) (leadup : String) (highCol : Int)
    (h : highCol ≤ 0) :
    printRangesStr rs leadup highCol = leadup ++ joinPipe (rs.map RangeString) ++ "\n" := by
  rw [printRangesStr, if_pos h, RangesString_eq_joinPipe]

theorem c8_nowrap_witness :
    printRangesStr [⟨0, 0⟩, ⟨2, 5⟩] "x" 0 =
      "x" ++ joinPipe ([(⟨0, 0⟩ : Range), ⟨2, 5⟩].map RangeString) ++ "\n" :=
  c8_nowrap [⟨0, 0⟩, ⟨2, 5⟩] "x" 0 (by decide)

/-- C9, counterexample.  The spec claims the trailing " |" is appended to
all but the last Range placed on each line.  With ranges [{0,0}, {2,2}],
lowCol = 0 and highcol = 5, printLine places exactly one Range on the
line, yet the line reads "#x0 |": the sole (hence last) Range placed on
the line carries the trailing " |", because the code appends it to every
Range except the last of the whole remaining slice. -/
theorem c9_counterexample :
    printLineStr [⟨0, 0⟩, ⟨2, 2⟩] 0 5 = (1, "#x0 |\n") ∧
    (1 : Nat) < ([(⟨0, 0⟩ : Range), ⟨2, 2⟩] : List Range).length ∧
    ("#x0 |\n" : String) ≠ "#x0" ++ "\n" := by
  refine ⟨by decide, by decide, by decide⟩

/-- C9, amended.  Each printed line consists of the rendered Ranges it
places joined by " | " (realized as a leading space on all but the first
token and a trailing " |" on the earlier tokens); when the line does not
exhaust the remaining sequence its last placed Range also carries the
trailing " |"; the final line (which exhausts the sequence) ends with no
separator. -/
theorem c9_amended (rs : List Range) (lowCol : Nat) (highCol : Int) :
    (printLineStr rs lowCol highCol).1 ≤ rs.length ∧
    (printLineStr rs lowCol highCol).2 =
      joinPipe ((rs.take (printLineStr rs lowCol highCol).1).map RangeString) ++
        (if 0 < (printLineStr rs lowCol highCol).1 ∧
            (printLineStr rs lowCol highCol).1 < rs.length
          then " |" else "") ++ "\n" := by
  rcases hp : printLineAux rs.length highCol rs 0 (lowCol : Int) with ⟨used, out⟩
  have hspec := printLineAux_spec highCol rs 0 (lowCol : Int) used out
    (by rw [Nat.zero_add]; exact hp)
  have hps : printLineStr rs lowCol highCol = (used, out ++ "\n") := by
    rw [printLineStr, hp]
  rw [hps]
  dsimp only
  refine ⟨hspec.1, ?_⟩
  rw [hspec.2]
  simp [String.append_assoc]

/-- C10.  A ch= term with an empty (in Go, also an undecodable) value is
not reported: the decode error is ignored and the compiled matcher
matches exactly the replacement rune U+FFFD that the decoder returned. -/
theorem c10_ch_empty_replacement :
    (parseMatchers "ch=").2 = ParseOutcome.ok ∧
    ∃ m, (parseMatchers "ch=").1 = [m] ∧
      ∀ cp, m cp = (cp.codepoint == 0xFFFD) :=
  ⟨rfl, ⟨_, rfl, fun _ => rfl⟩⟩

end URF
